import Mathlib

/-!
Shallow embedding of the `target-features` crate's feature-resolution core
(`src/lib.rs`): the `Architecture` enumeration, `Feature` handles into an
ordered feature table, and the `Target` value type with its boolean feature
array and implication-aware support query.

The feature table (`FEATURES` in the crate) is a generated artifact not part
of the source; every operation here is therefore parameterized by an
arbitrary table `T : List FeatureEntry`.  Rust strings are modelled as Lean
`String`s (byte-for-byte comparison of UTF-8 data corresponds to equality of
the character lists, since UTF-8 encoding is injective).  A Rust panic
(failed `assert!`, out-of-bounds index, or explicit `panic!`) is modelled as
the `none` / abnormal outcome of an `Option`-valued function.
-/

set_option autoImplicit false

namespace TargetFeatures

/-- The `Architecture` enum from the crate, in declaration order. -/
inductive Architecture where
  | Arm
  | AArch64
  | Bpf
  | Hexagon
  | Mips
  | PowerPC
  | RiscV
  | Wasm
  | X86
  | Unsupported
  deriving DecidableEq, Fintype

/-- The Rust `as u8` cast of an `Architecture`: its discriminant, which is
the position in declaration order. -/
def Architecture.toU8 : Architecture → Nat
  | .Arm => 0
  | .AArch64 => 1
  | .Bpf => 2
  | .Hexagon => 3
  | .Mips => 4
  | .PowerPC => 5
  | .RiscV => 6
  | .Wasm => 7
  | .X86 => 8
  | .Unsupported => 9

/-- `struct UnknownFeature`, returned by `Feature::new` on lookup failure. -/
structure UnknownFeature where
  deriving DecidableEq

/-- `struct Feature(usize)`: a handle holding an index into the table. -/
structure Feature where
  idx : Nat
  deriving DecidableEq

/-- One entry of the generated `FEATURES` table:
`(Architecture, &str, &str, &[Feature])`. -/
structure FeatureEntry where
  arch : Architecture
  name : String
  descr : String
  implies : List Feature
  deriving DecidableEq

/-- Helper for `str_eq`: element-wise comparison of the character lists,
mirroring the byte loop of the Rust `str_eq`. -/
def charsEq : List Char → List Char → Bool
  | [], [] => true
  | c :: cs, d :: ds => c == d && charsEq cs ds
  | _, _ => false

/-- The inner `const fn str_eq` of `Feature::new`: length check first, then
element-by-element comparison. -/
def str_eq (a b : String) : Bool :=
  if a.data.length != b.data.length then false
  else charsEq a.data b.data

/-- The per-entry test of the `Feature::new` scan loop:
`(architecture as u8) == (FEATURES[i].0 as u8) && str_eq(feature, FEATURES[i].1)`. -/
def entryMatches (a : Architecture) (s : String) (e : FeatureEntry) : Bool :=
  a.toU8 == e.arch.toU8 && str_eq s e.name

/-- The scan loop of `Feature::new`: walk the table from index `i`,
returning the index of the first matching entry. -/
def findFeature : List FeatureEntry → Nat → Architecture → String → Option Nat
  | [], _, _, _ => none
  | e :: rest, i, a, s =>
    if entryMatches a s e then some i else findFeature rest (i + 1) a s

/-- `Feature::new(architecture, feature)`. -/
def Feature.new (T : List FeatureEntry) (a : Architecture) (s : String) :
    Except UnknownFeature Feature :=
  match findFeature T 0 a s with
  | some i => Except.ok ⟨i⟩
  | none => Except.error ⟨⟩

/-- `Feature::name`: `FEATURES[self.0].1`; `none` models an out-of-bounds
index panic (unreachable for handles from `Feature::new`). -/
def Feature.name (T : List FeatureEntry) (f : Feature) : Option String :=
  (T.get? f.idx).map FeatureEntry.name

/-- `Feature::architecture`: `FEATURES[self.0].0`. -/
def Feature.architecture (T : List FeatureEntry) (f : Feature) : Option Architecture :=
  (T.get? f.idx).map FeatureEntry.arch

/-- `Feature::description`: `FEATURES[self.0].2`. -/
def Feature.description (T : List FeatureEntry) (f : Feature) : Option String :=
  (T.get? f.idx).map FeatureEntry.descr

/-- `Feature::implies`: `FEATURES[self.0].3`. -/
def Feature.implies (T : List FeatureEntry) (f : Feature) : Option (List Feature) :=
  (T.get? f.idx).map FeatureEntry.implies

/-- `struct Target { architecture, features: [bool; FEATURES.len()] }`.
The fixed array length (`features.length = T.length`) is a type-level fact
in Rust; here it is carried as a hypothesis where needed. -/
structure Target where
  architecture : Architecture
  features : List Bool
  deriving DecidableEq

/-- `Target::new(architecture)`: all feature bits false. -/
def Target.new (T : List FeatureEntry) (architecture : Architecture) : Target :=
  ⟨architecture, List.replicate T.length false⟩

/-- The inner `while j < implies.len()` loop of `supports_feature`, with the
remaining iteration count as fuel.  Each iteration tests the queried index
against `implies[0]` — exactly as written in the source, where the loop
variable `j` is advanced but never used in the comparison. -/
def innerLoop (fidx : Nat) (implies : List Feature) : Nat → Bool
  | 0 => false
  | n + 1 =>
    match implies with
    | [] => false
    | f0 :: _ => if fidx == f0.idx then true else innerLoop fidx implies n

/-- The outer `while i < self.features.len()` loop of `supports_feature`,
walking the feature bits with `i` as the running index; for each set bit it
fetches `FEATURES[i].3` and runs the inner loop.  `none` models a panic on
table indexing. -/
def scanImplied (T : List FeatureEntry) (fidx : Nat) : List Bool → Nat → Option Bool
  | [], _ => some false
  | b :: rest, i =>
    if b then
      match T.get? i with
      | none => none
      | some e =>
        if innerLoop fidx e.implies e.implies.length then some true
        else scanImplied T fidx rest (i + 1)
    else scanImplied T fidx rest (i + 1)

/-- `Target::supports_feature(feature)`: direct bit first, then the
implication scan.  `none` models the panic on `self.features[feature.0]`
when the handle's index is out of bounds. -/
def Target.supports_feature (T : List FeatureEntry) (t : Target) (f : Feature) :
    Option Bool :=
  match t.features.get? f.idx with
  | none => none
  | some b => if b then some true else scanImplied T f.idx t.features 0

/-- `Target::with_feature(feature)`: asserts
`feature.architecture() as u8 == self.architecture as u8` (panicking on
mismatch, and on an out-of-bounds handle when reading the table or writing
the bit), then sets the bit. -/
def Target.with_feature (T : List FeatureEntry) (t : Target) (f : Feature) :
    Option Target :=
  match T.get? f.idx with
  | none => none
  | some e =>
    if e.arch.toU8 == t.architecture.toU8 then
      if f.idx < t.features.length then
        some ⟨t.architecture, t.features.set f.idx true⟩
      else none
    else none

/-- `Target::without_feature(feature)`: same checks, clears the bit. -/
def Target.without_feature (T : List FeatureEntry) (t : Target) (f : Feature) :
    Option Target :=
  match T.get? f.idx with
  | none => none
  | some e =>
    if e.arch.toU8 == t.architecture.toU8 then
      if f.idx < t.features.length then
        some ⟨t.architecture, t.features.set f.idx false⟩
      else none
    else none

/-- `Target::supports_feature_str`: resolves the name with `Feature::new`
for the target's own architecture, panicking (`none`) on failure. -/
def Target.supports_feature_str (T : List FeatureEntry) (t : Target) (s : String) :
    Option Bool :=
  match Feature.new T t.architecture s with
  | Except.ok f => Target.supports_feature T t f
  | Except.error _ => none

/-- `Target::with_feature_str`. -/
def Target.with_feature_str (T : List FeatureEntry) (t : Target) (s : String) :
    Option Target :=
  match Feature.new T t.architecture s with
  | Except.ok f => Target.with_feature T t f
  | Except.error _ => none

/-- `Target::without_feature_str`. -/
def Target.without_feature_str (T : List FeatureEntry) (t : Target) (s : String) :
    Option Target :=
  match Feature.new T t.architecture s with
  | Except.ok f => Target.without_feature T t f
  | Except.error _ => none

/-! ### Concrete fixture table

A small table used for witnesses and counterexamples: three x86 features,
the first of which implies the other two, plus one Arm feature. -/

/-- Fixture entry: an x86 feature whose `implies` list has two entries. -/
def eA : FeatureEntry := ⟨Architecture.X86, "feat-a", "first x86 feature", [⟨1⟩, ⟨2⟩]⟩

/-- Fixture entry: the first implied x86 feature. -/
def eB : FeatureEntry := ⟨Architecture.X86, "feat-b", "second x86 feature", []⟩

/-- Fixture entry: the second implied x86 feature. -/
def eC : FeatureEntry := ⟨Architecture.X86, "feat-c", "third x86 feature", []⟩

/-- Fixture entry: an Arm feature. -/
def eD : FeatureEntry := ⟨Architecture.Arm, "feat-d", "an arm feature", []⟩

/-- Fixture table. -/
def T0 : List FeatureEntry := [eA, eB, eC, eD]

/-- The table contract from the spec: no two entries share
`(architecture, name)`. -/
def NoDupKeys (T : List FeatureEntry) : Prop :=
  ∀ i j e e', T.get? i = some e → T.get? j = some e' →
    e.arch = e'.arch → e.name = e'.name → i = j

/-- Targets reachable from `Target::new` by sequences of successful
(non-panicking) `with_feature` / `without_feature` calls. -/
inductive Reachable (T : List FeatureEntry) : Target → Prop where
  | base (A : Architecture) : Reachable T (Target.new T A)
  | step_with (t t' : Target) (f : Feature) :
      Reachable T t → Target.with_feature T t f = some t' → Reachable T t'
  | step_without (t t' : Target) (f : Feature) :
      Reachable T t → Target.without_feature T t f = some t' → Reachable T t'

/-! ### Bridging lemmas: the source's comparisons versus plain equality -/

/-- The `as u8` discriminant cast is injective, so comparing discriminants
is the same as comparing architectures. -/
lemma toU8_inj : ∀ a b : Architecture, a.toU8 = b.toU8 → a = b := by decide

/-- Discriminant comparison as a boolean equality test. -/
lemma toU8_beq_iff : ∀ a b : Architecture, (a.toU8 == b.toU8) = true ↔ a = b := by decide

/-- Element-wise character comparison is list equality. -/
lemma charsEq_iff : ∀ xs ys : List Char, charsEq xs ys = true ↔ xs = ys := by
  intro xs
  induction xs with
  | nil => intro ys; cases ys <;> simp [charsEq]
  | cons c cs ih =>
      intro ys
      cases ys with
      | nil => simp [charsEq]
      | cons d ds => simp [charsEq, ih]

/-- Two strings with the same character data are equal. -/
lemma string_data_inj (a b : String) (h : a.data = b.data) : a = b :=
  congrArg String.mk h

/-- The crate's `str_eq` decides string equality. -/
lemma str_eq_iff (a b : String) : str_eq a b = true ↔ a = b := by
  unfold str_eq
  cases hbne : a.data.length != b.data.length with
  | true =>
      rw [if_pos rfl]
      have hne : a.data.length ≠ b.data.length := bne_iff_ne.mp hbne
      refine iff_of_false (fun hc => Bool.noConfusion hc) (fun hab => ?_)
      exact hne (by rw [hab])
  | false =>
      rw [if_neg (fun hc => Bool.noConfusion hc), charsEq_iff]
      constructor
      · exact fun hd => string_data_inj a b hd
      · intro hab; rw [hab]

/-- The per-entry test of the lookup loop holds exactly when the entry has
the requested architecture and exactly the requested name. -/
lemma entryMatches_iff (a : Architecture) (s : String) (e : FeatureEntry) :
    entryMatches a s e = true ↔ e.arch = a ∧ e.name = s := by
  simp only [entryMatches, Bool.and_eq_true, beq_iff_eq, str_eq_iff, toU8_beq_iff]
  constructor
  · rintro ⟨h1, h2⟩
    exact ⟨(toU8_beq_iff a e.arch).mp (by simp [h1]) |>.symm, h2.symm⟩
  · rintro ⟨h1, h2⟩
    exact ⟨by rw [h1], h2.symm⟩

/-- Negated form of `entryMatches_iff`. -/
lemma entryMatches_false_iff (a : Architecture) (s : String) (e : FeatureEntry) :
    entryMatches a s e = false ↔ ¬(e.arch = a ∧ e.name = s) := by
  rw [← entryMatches_iff a s e]
  cases h : entryMatches a s e <;> simp

/-! ### Characterization of the `Feature::new` scan loop -/

/-- Unfolding of the scan on a matching head entry. -/
lemma findFeature_cons_pos {a : Architecture} {s : String} {e : FeatureEntry}
    (rest : List FeatureEntry) (i : Nat) (h : entryMatches a s e = true) :
    findFeature (e :: rest) i a s = some i := by
  simp [findFeature, h]

/-- Unfolding of the scan on a non-matching head entry. -/
lemma findFeature_cons_neg {a : Architecture} {s : String} {e : FeatureEntry}
    (rest : List FeatureEntry) (i : Nat) (h : entryMatches a s e = false) :
    findFeature (e :: rest) i a s = findFeature rest (i + 1) a s := by
  simp [findFeature, h]

/-- The scan returns `none` exactly when no entry of the remaining list
matches. -/
lemma findFeature_none_iff (a : Architecture) (s : String) :
    ∀ (l : List FeatureEntry) (i : Nat),
      findFeature l i a s = none ↔
        ∀ j e, l.get? j = some e → entryMatches a s e = false := by
  intro l
  induction l with
  | nil => intro i; simp [findFeature]
  | cons e rest ih =>
      intro i
      cases hm : entryMatches a s e with
      | true =>
          rw [findFeature_cons_pos rest i hm]
          refine iff_of_false (fun h => Option.noConfusion h) (fun h => ?_)
          have h0 := h 0 e rfl
          rw [hm] at h0
          exact Bool.noConfusion h0
      | false =>
          rw [findFeature_cons_neg rest i hm, ih (i + 1)]
          constructor
          · intro h j e' hj
            cases j with
            | zero =>
                have he : e = e' := by simpa using hj
                rw [← he]; exact hm
            | succ j' => exact h j' e' (by simpa using hj)
          · intro h j e' hj
            exact h (j + 1) e' (by simpa using hj)

/-- The scan returns `some k` exactly when `k` is the position (offset by
the starting index `i`) of the first matching entry. -/
lemma findFeature_some_iff (a : Architecture) (s : String) :
    ∀ (l : List FeatureEntry) (i k : Nat),
      findFeature l i a s = some k ↔
        ∃ j e, k = i + j ∧ l.get? j = some e ∧ entryMatches a s e = true ∧
          ∀ j' e', j' < j → l.get? j' = some e' → entryMatches a s e' = false := by
  intro l
  induction l with
  | nil => intro i k; simp [findFeature]
  | cons e rest ih =>
      intro i k
      cases hm : entryMatches a s e with
      | true =>
          rw [findFeature_cons_pos rest i hm]
          constructor
          · intro h
            have hik : i = k := Option.some_inj.mp h
            exact ⟨0, e, by omega, rfl, hm, by intro j' e' hj' hg; omega⟩
          · rintro ⟨j, e', hk, hget, hmat, hfirst⟩
            cases j with
            | zero => exact congrArg some (by omega)
            | succ j' =>
                have h0 := hfirst 0 e (Nat.succ_pos _) rfl
                rw [hm] at h0
                exact Bool.noConfusion h0
      | false =>
          rw [findFeature_cons_neg rest i hm, ih (i + 1)]
          constructor
          · rintro ⟨j, e', hk, hget, hmat, hfirst⟩
            refine ⟨j + 1, e', by omega, by simpa using hget, hmat, ?_⟩
            intro j' e'' hj' hget'
            cases j' with
            | zero =>
                have he : e = e'' := by simpa using hget'
                rw [← he]; exact hm
            | succ j'' => exact hfirst j'' e'' (by omega) (by simpa using hget')
          · rintro ⟨j, e', hk, hget, hmat, hfirst⟩
            cases j with
            | zero =>
                have he : e = e' := by simpa using hget
                rw [← he] at hmat
                rw [hm] at hmat
                exact Bool.noConfusion hmat
            | succ j'' =>
                refine ⟨j'', e', by omega, by simpa using hget, hmat, ?_⟩
                intro j' e'' hj' hget'
                exact hfirst (j' + 1) e'' (by omega) (by simpa using hget')

/-- `Feature::new` unfolds to `Ok` when the scan finds a match. -/
lemma feature_new_of_some {T : List FeatureEntry} {a : Architecture} {s : String}
    {i : Nat} (h : findFeature T 0 a s = some i) :
    Feature.new T a s = Except.ok ⟨i⟩ := by
  unfold Feature.new
  rw [h]

/-- `Feature::new` unfolds to `Err UnknownFeature` when the scan fails. -/
lemma feature_new_of_none {T : List FeatureEntry} {a : Architecture} {s : String}
    (h : findFeature T 0 a s = none) :
    Feature.new T a s = Except.error ⟨⟩ := by
  unfold Feature.new
  rw [h]

/-- `Feature::new` succeeds exactly on the first matching index. -/
lemma feature_new_ok_iff (T : List FeatureEntry) (a : Architecture) (s : String)
    (f : Feature) :
    Feature.new T a s = Except.ok f ↔
      ∃ e, T.get? f.idx = some e ∧ entryMatches a s e = true ∧
        ∀ j e', j < f.idx → T.get? j = some e' → entryMatches a s e' = false := by
  obtain ⟨n⟩ := f
  cases hf : findFeature T 0 a s with
  | none =>
      rw [feature_new_of_none hf]
      refine iff_of_false (fun h => Except.noConfusion h) (fun h => ?_)
      obtain ⟨e, hget, hmat, _⟩ := h
      have h0 := (findFeature_none_iff a s T 0).mp hf n e hget
      rw [hmat] at h0
      exact Bool.noConfusion h0
  | some i =>
      rw [feature_new_of_some hf]
      obtain ⟨j, e, hij, hget, hmat, hfirst⟩ := (findFeature_some_iff a s T 0 i).mp hf
      have hji : j = i := by omega
      subst hji
      constructor
      · intro h
        have hfi : j = n := by
          have h2 := h
          simp only [Except.ok.injEq, Feature.mk.injEq] at h2
          exact h2
        subst hfi
        exact ⟨e, hget, hmat, fun j' e' hj' hg => hfirst j' e' hj' hg⟩
      · rintro ⟨e', hget', hmat', hfirst'⟩
        rcases Nat.lt_trichotomy n j with hlt | heq | hgt
        · have h0 := hfirst n e' hlt hget'
          rw [hmat'] at h0
          exact Bool.noConfusion h0
        · rw [heq]
        · have h0 := hfirst' j e hgt hget
          rw [hmat] at h0
          exact Bool.noConfusion h0

/-- `Feature::new` fails exactly when no table entry matches. -/
lemma feature_new_error_iff (T : List FeatureEntry) (a : Architecture) (s : String) :
    Feature.new T a s = Except.error ⟨⟩ ↔
      ∀ j e, T.get? j = some e → entryMatches a s e = false := by
  cases hf : findFeature T 0 a s with
  | none =>
      rw [feature_new_of_none hf]
      simp only [true_iff]
      exact (findFeature_none_iff a s T 0).mp hf
  | some i =>
      rw [feature_new_of_some hf]
      refine iff_of_false (fun h => Except.noConfusion h) (fun h => ?_)
      obtain ⟨j, e, hij, hget, hmat, _⟩ := (findFeature_some_iff a s T 0 i).mp hf
      have h0 := h j e hget
      rw [hmat] at h0
      exact Bool.noConfusion h0

/-! ### Target mutators: success/panic characterization -/

/-- `with_feature` succeeds exactly when the handle is in bounds and its
entry's architecture equals the target's, and then it sets the bit. -/
lemma with_feature_some_iff (T : List FeatureEntry) (t t' : Target) (f : Feature) :
    Target.with_feature T t f = some t' ↔
      ∃ e, T.get? f.idx = some e ∧ e.arch = t.architecture ∧
        f.idx < t.features.length ∧
        t' = ⟨t.architecture, t.features.set f.idx true⟩ := by
  unfold Target.with_feature
  cases hg : T.get? f.idx with
  | none =>
      refine iff_of_false (fun h => Option.noConfusion h) (fun h => ?_)
      obtain ⟨e, he, _⟩ := h
      exact Option.noConfusion he
  | some e =>
      dsimp only
      cases ha : e.arch.toU8 == t.architecture.toU8 with
      | false =>
          rw [if_neg (by decide : ¬(false = true))]
          refine iff_of_false (fun h => Option.noConfusion h) (fun h => ?_)
          obtain ⟨e', he', harch, _, _⟩ := h
          have hee : e = e' := Option.some_inj.mp he'
          have hbeq : (e.arch.toU8 == t.architecture.toU8) = true :=
            (toU8_beq_iff e.arch t.architecture).mpr (by rw [hee]; exact harch)
          rw [ha] at hbeq
          exact Bool.noConfusion hbeq
      | true =>
          rw [if_pos rfl]
          by_cases hlt : f.idx < t.features.length
          · rw [if_pos hlt]
            constructor
            · intro h
              exact ⟨e, rfl, (toU8_beq_iff e.arch t.architecture).mp ha, hlt,
                (Option.some_inj.mp h).symm⟩
            · rintro ⟨e', he', harch, hlt', ht'⟩
              rw [ht']
          · rw [if_neg hlt]
            refine iff_of_false (fun h => Option.noConfusion h) (fun h => ?_)
            obtain ⟨e', _, _, hlt', _⟩ := h
            exact hlt hlt'

/-- `without_feature` succeeds under the same conditions and clears the bit. -/
lemma without_feature_some_iff (T : List FeatureEntry) (t t' : Target) (f : Feature) :
    Target.without_feature T t f = some t' ↔
      ∃ e, T.get? f.idx = some e ∧ e.arch = t.architecture ∧
        f.idx < t.features.length ∧
        t' = ⟨t.architecture, t.features.set f.idx false⟩ := by
  unfold Target.without_feature
  cases hg : T.get? f.idx with
  | none =>
      refine iff_of_false (fun h => Option.noConfusion h) (fun h => ?_)
      obtain ⟨e, he, _⟩ := h
      exact Option.noConfusion he
  | some e =>
      dsimp only
      cases ha : e.arch.toU8 == t.architecture.toU8 with
      | false =>
          rw [if_neg (by decide : ¬(false = true))]
          refine iff_of_false (fun h => Option.noConfusion h) (fun h => ?_)
          obtain ⟨e', he', harch, _, _⟩ := h
          have hee : e = e' := Option.some_inj.mp he'
          have hbeq : (e.arch.toU8 == t.architecture.toU8) = true :=
            (toU8_beq_iff e.arch t.architecture).mpr (by rw [hee]; exact harch)
          rw [ha] at hbeq
          exact Bool.noConfusion hbeq
      | true =>
          rw [if_pos rfl]
          by_cases hlt : f.idx < t.features.length
          · rw [if_pos hlt]
            constructor
            · intro h
              exact ⟨e, rfl, (toU8_beq_iff e.arch t.architecture).mp ha, hlt,
                (Option.some_inj.mp h).symm⟩
            · rintro ⟨e', he', harch, hlt', ht'⟩
              rw [ht']
          · rw [if_neg hlt]
            refine iff_of_false (fun h => Option.noConfusion h) (fun h => ?_)
            obtain ⟨e', _, _, hlt', _⟩ := h
            exact hlt hlt'

/-! ### The implication scan: unfolding and basic facts -/

/-- The outer loop skips a clear bit. -/
lemma scanImplied_cons_false (T : List FeatureEntry) (fidx : Nat) (rest : List Bool)
    (i : Nat) :
    scanImplied T fidx (false :: rest) i = scanImplied T fidx rest (i + 1) := by
  simp [scanImplied]

/-- The outer loop on a set bit whose table entry exists. -/
lemma scanImplied_cons_true (T : List FeatureEntry) (fidx : Nat) (rest : List Bool)
    (i : Nat) (e : FeatureEntry) (he : T.get? i = some e) :
    scanImplied T fidx (true :: rest) i =
      if innerLoop fidx e.implies e.implies.length then some true
      else scanImplied T fidx rest (i + 1) := by
  have he' : T[i]? = some e := by rw [← List.get?_eq_getElem?]; exact he
  simp [scanImplied, he']

/-- The scan over an all-false bit array finds nothing. -/
lemma scanImplied_replicate_false (T : List FeatureEntry) (fidx : Nat) :
    ∀ (n i : Nat), scanImplied T fidx (List.replicate n false) i = some false := by
  intro n
  induction n with
  | zero => intro i; rfl
  | succ m ih =>
      intro i
      rw [List.replicate_succ, scanImplied_cons_false]
      exact ih (i + 1)

/-- The scan never panics while the bit positions it visits stay inside the
table. -/
lemma scanImplied_isSome (T : List FeatureEntry) (fidx : Nat) :
    ∀ (l : List Bool) (i : Nat), i + l.length ≤ T.length →
      ∃ b, scanImplied T fidx l i = some b := by
  intro l
  induction l with
  | nil => intro i h; exact ⟨false, rfl⟩
  | cons b rest ih =>
      intro i h
      have hlen : i + rest.length + 1 ≤ T.length := by
        simp only [List.length_cons] at h
        omega
      cases b with
      | false =>
          rw [scanImplied_cons_false]
          exact ih (i + 1) (by omega)
      | true =>
          have hi : i < T.length := by omega
          obtain ⟨e, he⟩ : ∃ e, T.get? i = some e :=
            ⟨T.get ⟨i, hi⟩, List.get?_eq_get hi⟩
          rw [scanImplied_cons_true T fidx rest i e he]
          cases hinner : innerLoop fidx e.implies e.implies.length with
          | true => exact ⟨true, if_pos rfl⟩
          | false =>
              rw [if_neg (fun hc => Bool.noConfusion hc)]
              exact ih (i + 1) (by omega)

/-- Reduction of `supports_feature` once the direct bit is known. -/
lemma supports_feature_eq (T : List FeatureEntry) (t : Target) (f : Feature) (b : Bool)
    (hb : t.features.get? f.idx = some b) :
    Target.supports_feature T t f =
      if b then some true else scanImplied T f.idx t.features 0 := by
  unfold Target.supports_feature
  rw [hb]

/-- `supports_feature` is `some true` whenever the direct bit is set. -/
lemma supports_feature_of_bit (T : List FeatureEntry) (t : Target) (f : Feature)
    (hb : t.features.get? f.idx = some true) :
    Target.supports_feature T t f = some true := by
  rw [supports_feature_eq T t f true hb]
  exact if_pos rfl

/-- `supports_feature` is total on any in-bounds handle of a well-sized
target. -/
lemma supports_feature_isSome (T : List FeatureEntry) (t : Target) (f : Feature)
    (hlen : t.features.length = T.length) (hf : f.idx < t.features.length) :
    ∃ b, Target.supports_feature T t f = some b := by
  obtain ⟨b, hb⟩ : ∃ b, t.features.get? f.idx = some b :=
    ⟨t.features.get ⟨f.idx, hf⟩, List.get?_eq_get hf⟩
  rw [supports_feature_eq T t f b hb]
  cases b with
  | true => exact ⟨true, if_pos rfl⟩
  | false =>
      rw [if_neg (fun hc => Bool.noConfusion hc)]
      exact scanImplied_isSome T f.idx t.features 0 (by omega)

/-- A fresh target's bit array is all-false at every table position. -/
lemma new_bit_false (T : List FeatureEntry) (A : Architecture) (i : Nat)
    (hi : i < T.length) :
    (Target.new T A).features.get? i = some false := by
  show (List.replicate T.length false).get? i = some false
  rw [List.get?_eq_getElem?, List.getElem?_replicate, if_pos hi]

/-- A fresh target supports no in-bounds feature. -/
lemma supports_feature_new_false (T : List FeatureEntry) (A : Architecture)
    (f : Feature) (hf : f.idx < T.length) :
    Target.supports_feature T (Target.new T A) f = some false := by
  rw [supports_feature_eq T (Target.new T A) f false (new_bit_false T A f.idx hf),
    if_neg (fun hc => Bool.noConfusion hc)]
  show scanImplied T f.idx (List.replicate T.length false) 0 = some false
  exact scanImplied_replicate_false T f.idx T.length 0

/-- Clearing a bit of the all-false array is a no-op. -/
lemma set_replicate_false (n i : Nat) :
    (List.replicate n false).set i false = List.replicate n false := by
  induction n generalizing i with
  | zero => rfl
  | succ m ih =>
      cases i with
      | zero => rw [List.replicate_succ]; rfl
      | succ i' =>
          rw [List.replicate_succ, List.set_cons_succ, ih i']

/-- A `some` result of `List.get?` implies the index is in bounds. -/
lemma get?_some_lt {α : Type} (l : List α) (n : Nat) (a : α) (h : l.get? n = some a) :
    n < l.length := by
  obtain ⟨hlt, _⟩ := List.get?_eq_some.mp h
  exact hlt

/-- Index characterization of lookups into the fixture table. -/
lemma T0_get_cases (i : Nat) (e : FeatureEntry) (h : T0.get? i = some e) :
    (i = 0 ∧ e = eA) ∨ (i = 1 ∧ e = eB) ∨ (i = 2 ∧ e = eC) ∨ (i = 3 ∧ e = eD) := by
  match i with
  | 0 => exact Or.inl ⟨rfl, (Option.some_inj.mp h).symm⟩
  | 1 => exact Or.inr (Or.inl ⟨rfl, (Option.some_inj.mp h).symm⟩)
  | 2 => exact Or.inr (Or.inr (Or.inl ⟨rfl, (Option.some_inj.mp h).symm⟩))
  | 3 => exact Or.inr (Or.inr (Or.inr ⟨rfl, (Option.some_inj.mp h).symm⟩))
  | n + 4 =>
      have hn : T0.get? (n + 4) = none := rfl
      rw [hn] at h
      exact Option.noConfusion h

/-- The fixture table has pairwise distinct `(architecture, name)` keys. -/
lemma T0_nodup : NoDupKeys T0 := by
  intro i j e e' hi hj ha hn
  rcases T0_get_cases i e hi with ⟨hi0, he⟩ | ⟨hi0, he⟩ | ⟨hi0, he⟩ | ⟨hi0, he⟩ <;>
    rcases T0_get_cases j e' hj with ⟨hj0, he'⟩ | ⟨hj0, he'⟩ | ⟨hj0, he'⟩ | ⟨hj0, he'⟩ <;>
      subst he <;> subst he' <;> subst hi0 <;> subst hj0 <;>
        first
          | rfl
          | exact absurd hn (by decide)

/-! ### The claims -/

/-- C1: the claim that every feature anywhere in an enabled feature's
`implies()` list is supported FAILS on the code.  On the fixture table,
feature 0 is enabled and its `implies()` list is `[1, 2]`, yet
`supports_feature` returns `false` for the second implied feature (index 2)
while returning `true` for the first (index 1): the inner loop of
`supports_feature` compares the queried index only against `implies[0]`,
advancing its loop variable `j` without ever reading `implies[j]`. -/
theorem supports_feature_ignores_implies_tail :
    Target.with_feature T0 (Target.new T0 Architecture.X86) ⟨0⟩ =
      some ⟨Architecture.X86, [true, false, false, false]⟩ ∧
    Feature.implies T0 ⟨0⟩ = some [⟨1⟩, ⟨2⟩] ∧
    Target.supports_feature T0 ⟨Architecture.X86, [true, false, false, false]⟩ ⟨2⟩ =
      some false ∧
    Target.supports_feature T0 ⟨Architecture.X86, [true, false, false, false]⟩ ⟨1⟩ =
      some true := by
  refine ⟨by decide, rfl, by decide, by decide⟩

/-- C2: `Feature::new(a, s)` scans the table in index order and returns `Ok`
of the index of the first entry whose architecture equals `a` and whose name
equals `s` exactly; it returns `Err(UnknownFeature)` iff no entry matches. -/
theorem feature_new_first_match (T : List FeatureEntry) (a : Architecture) (s : String) :
    (∀ f : Feature, Feature.new T a s = Except.ok f ↔
        ∃ e, T.get? f.idx = some e ∧ e.arch = a ∧ e.name = s ∧
          ∀ j e', j < f.idx → T.get? j = some e' → ¬(e'.arch = a ∧ e'.name = s)) ∧
    (Feature.new T a s = Except.error ⟨⟩ ↔
        ∀ j e, T.get? j = some e → ¬(e.arch = a ∧ e.name = s)) := by
  constructor
  · intro f
    rw [feature_new_ok_iff]
    constructor
    · rintro ⟨e, hget, hmat, hfirst⟩
      obtain ⟨h1, h2⟩ := (entryMatches_iff a s e).mp hmat
      exact ⟨e, hget, h1, h2,
        fun j e' hj hg => (entryMatches_false_iff a s e').mp (hfirst j e' hj hg)⟩
    · rintro ⟨e, hget, h1, h2, hfirst⟩
      exact ⟨e, hget, (entryMatches_iff a s e).mpr ⟨h1, h2⟩,
        fun j e' hj hg => (entryMatches_false_iff a s e').mpr (hfirst j e' hj hg)⟩
  · rw [feature_new_error_iff]
    constructor
    · intro h j e hg
      exact (entryMatches_false_iff a s e).mp (h j e hg)
    · intro h j e hg
      exact (entryMatches_false_iff a s e).mpr (h j e hg)

/-- C2 witness: on the fixture table the lookup of `feat-b` for x86 resolves
to index 1. -/
theorem feature_new_first_match_witness :
    Feature.new T0 Architecture.X86 "feat-b" = Except.ok ⟨1⟩ := by
  refine ((feature_new_first_match T0 Architecture.X86 "feat-b").1 ⟨1⟩).mpr
    ⟨eB, rfl, rfl, rfl, ?_⟩
  intro j e' hj hg
  have hj1 : j < 1 := hj
  have hj0 : j = 0 := by omega
  subst hj0
  have he : eA = e' := Option.some_inj.mp hg
  rw [← he]
  rintro ⟨_, hn⟩
  exact absurd hn (by decide)

/-- C3: under the no-duplicate-keys table contract, looking up any table
entry's own `(architecture, name)` succeeds with that entry's index, and the
handle's accessors return the entry's fields. -/
theorem feature_table_roundtrip (T : List FeatureEntry) (hnd : NoDupKeys T)
    (i : Nat) (e : FeatureEntry) (hi : T.get? i = some e) :
    Feature.new T e.arch e.name = Except.ok ⟨i⟩ ∧
    Feature.name T ⟨i⟩ = some e.name ∧
    Feature.description T ⟨i⟩ = some e.descr ∧
    Feature.architecture T ⟨i⟩ = some e.arch := by
  refine ⟨?_, ?_, ?_, ?_⟩
  · rw [feature_new_ok_iff]
    refine ⟨e, hi, (entryMatches_iff e.arch e.name e).mpr ⟨rfl, rfl⟩, ?_⟩
    intro j e' hj hg
    rw [entryMatches_false_iff]
    rintro ⟨ha, hn⟩
    have hji : j = i := hnd j i e' e hg hi ha hn
    have hj' : j < i := hj
    omega
  · show (T.get? i).map FeatureEntry.name = some e.name
    rw [hi]
    rfl
  · show (T.get? i).map FeatureEntry.descr = some e.descr
    rw [hi]
    rfl
  · show (T.get? i).map FeatureEntry.arch = some e.arch
    rw [hi]
    rfl

/-- C3 witness: the round trip instantiated at entry 1 of the fixture
table. -/
theorem feature_table_roundtrip_witness :
    Feature.new T0 eB.arch eB.name = Except.ok ⟨1⟩ ∧
    Feature.name T0 ⟨1⟩ = some eB.name ∧
    Feature.description T0 ⟨1⟩ = some eB.descr ∧
    Feature.architecture T0 ⟨1⟩ = some eB.arch :=
  feature_table_roundtrip T0 T0_nodup 1 eB rfl

/-- The bit array of a fresh target has the table's length. -/
lemma new_features_length (T : List FeatureEntry) (A : Architecture) :
    (Target.new T A).features.length = T.length := by
  show (List.replicate T.length false).length = T.length
  simp

/-- C4: a fresh target has every feature bit false, and supports no feature
of its architecture. -/
theorem target_new_all_false (T : List FeatureEntry) (A : Architecture) :
    (∀ i, i < T.length → (Target.new T A).features.get? i = some false) ∧
    (∀ f e, T.get? f.idx = some e → e.arch = A →
      Target.supports_feature T (Target.new T A) f = some false) := by
  constructor
  · exact fun i hi => new_bit_false T A i hi
  · intro f e hget _
    exact supports_feature_new_false T A f (get?_some_lt T f.idx e hget)

/-- C4 witness: instantiated on the fixture table at the x86 architecture
and its feature 0. -/
theorem target_new_all_false_witness :
    (Target.new T0 Architecture.X86).features.get? 0 = some false ∧
    Target.supports_feature T0 (Target.new T0 Architecture.X86) ⟨0⟩ = some false := by
  have h := target_new_all_false T0 Architecture.X86
  exact ⟨h.1 0 (by decide), h.2 ⟨0⟩ eA rfl rfl⟩

/-- C5: enabling a feature of the target's own architecture on a fresh
target makes that feature supported. -/
theorem new_with_feature_supports (T : List FeatureEntry) (A : Architecture)
    (f : Feature) (e : FeatureEntry) (hget : T.get? f.idx = some e)
    (harch : e.arch = A) :
    ∃ t', Target.with_feature T (Target.new T A) f = some t' ∧
      Target.supports_feature T t' f = some true := by
  have hlt : f.idx < T.length := get?_some_lt T f.idx e hget
  refine ⟨⟨A, (List.replicate T.length false).set f.idx true⟩, ?_, ?_⟩
  · rw [with_feature_some_iff]
    exact ⟨e, hget, harch, by rw [new_features_length]; exact hlt, rfl⟩
  · apply supports_feature_of_bit
    show ((List.replicate T.length false).set f.idx true).get? f.idx = some true
    exact List.get?_set_eq_of_lt true (by simpa using hlt)

/-- C5 witness: enabling the x86 feature 0 on a fresh x86 target. -/
theorem new_with_feature_supports_witness :
    ∃ t', Target.with_feature T0 (Target.new T0 Architecture.X86) ⟨0⟩ = some t' ∧
      Target.supports_feature T0 t' ⟨0⟩ = some true :=
  new_with_feature_supports T0 Architecture.X86 ⟨0⟩ eA rfl rfl

/-- C6: enabling then disabling a feature on a fresh target rounds back to
unsupported. -/
theorem with_without_roundtrip (T : List FeatureEntry) (A : Architecture)
    (f : Feature) (e : FeatureEntry) (hget : T.get? f.idx = some e)
    (harch : e.arch = A) :
    ∃ t' t'', Target.with_feature T (Target.new T A) f = some t' ∧
      Target.without_feature T t' f = some t'' ∧
      Target.supports_feature T t'' f = some false := by
  have hlt : f.idx < T.length := get?_some_lt T f.idx e hget
  refine ⟨⟨A, (List.replicate T.length false).set f.idx true⟩, Target.new T A,
    ?_, ?_, ?_⟩
  · rw [with_feature_some_iff]
    exact ⟨e, hget, harch, by rw [new_features_length]; exact hlt, rfl⟩
  · rw [without_feature_some_iff]
    refine ⟨e, hget, harch, by simp only [List.length_set, List.length_replicate]; exact hlt, ?_⟩
    show Target.new T A =
      ⟨A, ((List.replicate T.length false).set f.idx true).set f.idx false⟩
    rw [List.set_set, set_replicate_false]
    rfl
  · exact supports_feature_new_false T A f hlt

/-- C6 witness: the round trip on the fixture table's x86 feature 0. -/
theorem with_without_roundtrip_witness :
    ∃ t' t'', Target.with_feature T0 (Target.new T0 Architecture.X86) ⟨0⟩ = some t' ∧
      Target.without_feature T0 t' ⟨0⟩ = some t'' ∧
      Target.supports_feature T0 t'' ⟨0⟩ = some false :=
  with_without_roundtrip T0 Architecture.X86 ⟨0⟩ eA rfl rfl

/-- C7: the mutators panic (abnormal outcome, `none`) exactly on contract
violation: an architecture mismatch for `with_feature`/`without_feature`, or
an unresolvable name for the `*_str` operations; when the precondition
holds, none of them panics. -/
theorem panic_contract (T : List FeatureEntry) (t : Target)
    (hlen : t.features.length = T.length) :
    (∀ f e, T.get? f.idx = some e → e.arch ≠ t.architecture →
      Target.with_feature T t f = none ∧ Target.without_feature T t f = none) ∧
    (∀ f e, T.get? f.idx = some e → e.arch = t.architecture →
      (Target.with_feature T t f).isSome = true ∧
      (Target.without_feature T t f).isSome = true) ∧
    (∀ s, Feature.new T t.architecture s = Except.error ⟨⟩ →
      Target.with_feature_str T t s = none ∧
      Target.without_feature_str T t s = none ∧
      Target.supports_feature_str T t s = none) ∧
    (∀ s f, Feature.new T t.architecture s = Except.ok f →
      (Target.with_feature_str T t s).isSome = true ∧
      (Target.without_feature_str T t s).isSome = true ∧
      (Target.supports_feature_str T t s).isSome = true) := by
  refine ⟨?_, ?_, ?_, ?_⟩
  · intro f e hget hne
    constructor
    · cases hw : Target.with_feature T t f with
      | none => rfl
      | some t' =>
          obtain ⟨e', he', ha, _, _⟩ := (with_feature_some_iff T t t' f).mp hw
          rw [hget] at he'
          have hee : e = e' := Option.some_inj.mp he'
          rw [← hee] at ha
          exact absurd ha hne
    · cases hw : Target.without_feature T t f with
      | none => rfl
      | some t' =>
          obtain ⟨e', he', ha, _, _⟩ := (without_feature_some_iff T t t' f).mp hw
          rw [hget] at he'
          have hee : e = e' := Option.some_inj.mp he'
          rw [← hee] at ha
          exact absurd ha hne
  · intro f e hget harch
    have hlt : f.idx < t.features.length := by
      rw [hlen]
      exact get?_some_lt T f.idx e hget
    have h1 := (with_feature_some_iff T t
      ⟨t.architecture, t.features.set f.idx true⟩ f).mpr ⟨e, hget, harch, hlt, rfl⟩
    have h2 := (without_feature_some_iff T t
      ⟨t.architecture, t.features.set f.idx false⟩ f).mpr ⟨e, hget, harch, hlt, rfl⟩
    exact ⟨by rw [h1]; rfl, by rw [h2]; rfl⟩
  · intro s hs
    refine ⟨?_, ?_, ?_⟩
    · unfold Target.with_feature_str
      rw [hs]
    · unfold Target.without_feature_str
      rw [hs]
    · unfold Target.supports_feature_str
      rw [hs]
  · intro s f hs
    obtain ⟨e, hget, hmat, _⟩ := (feature_new_ok_iff T t.architecture s f).mp hs
    have harch : e.arch = t.architecture :=
      ((entryMatches_iff t.architecture s e).mp hmat).1
    have hlt : f.idx < t.features.length := by
      rw [hlen]
      exact get?_some_lt T f.idx e hget
    have hwith := (with_feature_some_iff T t
      ⟨t.architecture, t.features.set f.idx true⟩ f).mpr ⟨e, hget, harch, hlt, rfl⟩
    have hwo := (without_feature_some_iff T t
      ⟨t.architecture, t.features.set f.idx false⟩ f).mpr ⟨e, hget, harch, hlt, rfl⟩
    obtain ⟨b, hsup⟩ := supports_feature_isSome T t f hlen hlt
    refine ⟨?_, ?_, ?_⟩
    · have heq : Target.with_feature_str T t s = Target.with_feature T t f := by
        unfold Target.with_feature_str
        rw [hs]
      rw [heq, hwith]
      rfl
    · have heq : Target.without_feature_str T t s = Target.without_feature T t f := by
        unfold Target.without_feature_str
        rw [hs]
      rw [heq, hwo]
      rfl
    · have heq : Target.supports_feature_str T t s = Target.supports_feature T t f := by
        unfold Target.supports_feature_str
        rw [hs]
      rw [heq, hsup]
      rfl

/-- C7 witness: on a fresh x86 fixture target, the Arm feature panics the
mutators, the x86 feature does not, an unknown name panics the string
operations, and a known name does not. -/
theorem panic_contract_witness :
    Target.with_feature T0 (Target.new T0 Architecture.X86) ⟨3⟩ = none ∧
    (Target.with_feature T0 (Target.new T0 Architecture.X86) ⟨0⟩).isSome = true ∧
    Target.with_feature_str T0 (Target.new T0 Architecture.X86) "nope" = none ∧
    (Target.supports_feature_str T0 (Target.new T0 Architecture.X86) "feat-a").isSome
      = true := by
  have h := panic_contract T0 (Target.new T0 Architecture.X86) (by decide)
  exact ⟨(h.1 ⟨3⟩ eD rfl (by decide)).1, (h.2.1 ⟨0⟩ eA rfl rfl).1,
    (h.2.2.1 "nope" (by rfl)).1, (h.2.2.2 "feat-a" ⟨0⟩ (by rfl)).2.2⟩

/-- C8: on every reachable target, every set feature bit belongs to a
feature whose `architecture()` is the target's architecture. -/
theorem reachable_bits_match_architecture (T : List FeatureEntry) (t : Target)
    (h : Reachable T t) :
    ∀ i, t.features.get? i = some true →
      Feature.architecture T ⟨i⟩ = some t.architecture := by
  induction h with
  | base A =>
      intro i hi
      have hlt : i < T.length := by
        have h1 := get?_some_lt _ i true hi
        rw [new_features_length] at h1
        exact h1
      have hb := new_bit_false T A i hlt
      rw [hb] at hi
      exact Bool.noConfusion (Option.some_inj.mp hi)
  | step_with t t' f hr hw ih =>
      intro i hi
      obtain ⟨e, hget, harch, hlt, ht'⟩ := (with_feature_some_iff T t t' f).mp hw
      subst ht'
      dsimp only at hi ⊢
      by_cases hif : i = f.idx
      · subst hif
        show (T.get? f.idx).map FeatureEntry.arch = some t.architecture
        rw [hget, Option.map_some', harch]
      · rw [List.get?_set_ne true t.features (Ne.symm hif)] at hi
        exact ih i hi
  | step_without t t' f hr hw ih =>
      intro i hi
      obtain ⟨e, hget, harch, hlt, ht'⟩ := (without_feature_some_iff T t t' f).mp hw
      subst ht'
      dsimp only at hi ⊢
      by_cases hif : i = f.idx
      · subst hif
        rw [List.get?_set_eq_of_lt false hlt] at hi
        exact Bool.noConfusion (Option.some_inj.mp hi)
      · rw [List.get?_set_ne false t.features (Ne.symm hif)] at hi
        exact ih i hi

/-- C8 witness: the invariant applied to the reachable fixture target with
its x86 feature 0 enabled. -/
theorem reachable_bits_witness :
    Feature.architecture T0 ⟨0⟩ = some Architecture.X86 := by
  have hr : Reachable T0 ⟨Architecture.X86, [true, false, false, false]⟩ :=
    Reachable.step_with (Target.new T0 Architecture.X86) _ ⟨0⟩
      (Reachable.base Architecture.X86) (by decide)
  exact reachable_bits_match_architecture T0 _ hr 0 rfl

/-- C9: a successful `with_feature` sets exactly the feature's bit and a
successful `without_feature` clears exactly that bit; the architecture and
every other bit are unchanged. -/
theorem with_without_frame (T : List FeatureEntry) (t t' t'' : Target) (f : Feature)
    (hw : Target.with_feature T t f = some t')
    (hwo : Target.without_feature T t f = some t'') :
    t'.architecture = t.architecture ∧
    t'.features.get? f.idx = some true ∧
    (∀ j, j ≠ f.idx → t'.features.get? j = t.features.get? j) ∧
    t''.architecture = t.architecture ∧
    t''.features.get? f.idx = some false ∧
    (∀ j, j ≠ f.idx → t''.features.get? j = t.features.get? j) := by
  obtain ⟨e, hget, harch, hlt, ht'⟩ := (with_feature_some_iff T t t' f).mp hw
  obtain ⟨e2, hget2, harch2, hlt2, ht''⟩ := (without_feature_some_iff T t t'' f).mp hwo
  subst ht' ht''
  refine ⟨rfl, ?_, ?_, rfl, ?_, ?_⟩
  · exact List.get?_set_eq_of_lt true hlt
  · intro j hj
    exact List.get?_set_ne true t.features (Ne.symm hj)
  · exact List.get?_set_eq_of_lt false hlt2
  · intro j hj
    exact List.get?_set_ne false t.features (Ne.symm hj)

/-- C9 witness: one conjunct of the frame property on the fixture target. -/
theorem with_without_frame_witness :
    (⟨Architecture.X86, [true, false, false, false]⟩ : Target).features.get? 0 =
      some true :=
  (with_without_frame T0 (Target.new T0 Architecture.X86)
    ⟨Architecture.X86, [true, false, false, false]⟩
    ⟨Architecture.X86, [false, false, false, false]⟩ ⟨0⟩
    (by decide) (by decide)).2.1

/-- C10: `supports_feature` is total (no panic, no out-of-bounds access) on
any handle with a valid table index, with no architecture-match
precondition. -/
theorem supports_feature_total (T : List FeatureEntry) (t : Target) (f : Feature)
    (hlen : t.features.length = T.length) (hf : f.idx < T.length) :
    ∃ b, Target.supports_feature T t f = some b :=
  supports_feature_isSome T t f hlen (by omega)

/-- C10 witness: querying an x86 feature on an Arm target still returns a
boolean. -/
theorem supports_feature_total_witness :
    ∃ b, Target.supports_feature T0 (Target.new T0 Architecture.Arm) ⟨0⟩ = some b :=
  supports_feature_total T0 (Target.new T0 Architecture.Arm) ⟨0⟩ (by decide) (by decide)

end TargetFeatures
